import Mathlib

/-!
Verification development for the document-QA-generator pipeline.

The development shallowly embeds the program's pure logic:

* `src/utils.py` : `clean_json_response`, `parse_llm_response`, and a model of
  the standard library's `json.loads` (`json_loads` below, a fuelled
  recursive-descent parser over `List Char` following the `json` module's
  grammar: JSON whitespace is exactly space, tab, newline, carriage return;
  numbers follow `-?(0|[1-9]\d*)(\.\d+)?([eE][+-]?\d+)?`; strings forbid raw
  control characters and support the standard escapes).  The markdown fence
  regular expression search of `clean_json_response` is embedded as an
  explicit scan (`findOpen` / `dropJsonTag` / `findClose`): the pattern finds
  the leftmost three-backtick opening, optionally consumes a case-insensitive
  `json` tag, and the lazy group together with the surrounding whitespace
  eaters and the final `.strip()` yields exactly the whitespace-stripped text
  up to the next three-backtick occurrence; when no closing fence exists no
  later starting position can match either, so the whole search fails.
  `str.strip()` and the pattern's whitespace class are modelled by the ASCII
  whitespace characters (`isPyWs`); the unicode-only whitespace code points
  play no role in any claim.
* `src/config.py` : `Config` and its construction from the environment.
* `src/processor.py` : `random.shuffle` (Fisher-Yates with the random draws
  supplied as an oracle), `process_document` and
  `process_multiple_documents`, with the external collaborators (document
  converter, LLM client, file writes) supplied as oracle functions; a
  document's returned value models the content written to its output file.

Exceptions are modelled by `Option`/`Except`.  Fuel in the JSON parser is
`4 * length + 16`, generous because each consumed character costs at most
four call frames; no theorem depends on fuel sufficiency, only on the parser
being a fixed total function of its input.
-/

/-- Whitespace skipped by Python's `json` module: `[ \t\n\r]`. -/
def isJsonWs (c : Char) : Bool :=
  c = ' ' || c = '\t' || c = '\n' || c = '\r'

/-- ASCII whitespace stripped by Python's `str.strip()` and matched by `\s`. -/
def isPyWs (c : Char) : Bool :=
  c = ' ' || c = '\t' || c = '\n' || c = '\r' || c = '\x0b' || c = '\x0c'

/-- Drop leading and trailing characters satisfying `p` (model of `strip`). -/
def stripWith (p : Char → Bool) (l : List Char) : List Char :=
  ((l.dropWhile p).reverse.dropWhile p).reverse

/-- Parsed JSON values as produced by `json.loads`.  Number literals are kept
as their source lexeme: no claim compares numeric values across distinct
lexemes, so this representation is injective enough. -/
inductive JsonValue where
  | null
  | bool (b : Bool)
  | num (lit : String)
  | str (s : String)
  | arr (elems : List JsonValue)
  | obj (members : List (String × JsonValue))

def skipWs (l : List Char) : List Char := l.dropWhile isJsonWs

def hexVal (c : Char) : Option Nat :=
  if c.isDigit then some (c.toNat - 48)
  else if 97 ≤ c.toNat ∧ c.toNat ≤ 102 then some (c.toNat - 87)
  else if 65 ≤ c.toNat ∧ c.toNat ≤ 70 then some (c.toNat - 55)
  else none

def escChar (e : Char) : Option Char :=
  if e = '"' then some '"'
  else if e = '\\' then some '\\'
  else if e = '/' then some '/'
  else if e = 'b' then some '\x08'
  else if e = 'f' then some '\x0c'
  else if e = 'n' then some '\n'
  else if e = 'r' then some '\r'
  else if e = 't' then some '\t'
  else none

/-- Body of a JSON string after the opening quote: returns the decoded
characters and the input after the closing quote.  `\uXXXX` decodes via
`Char.ofNat` without surrogate pairing (a modelling simplification; no claim
involves surrogate escapes). -/
def parseStringBody : Nat → List Char → Option (List Char × List Char)
  | 0, _ => none
  | _ + 1, [] => none
  | f + 1, c :: rest =>
    if c = '"' then some ([], rest)
    else if c = '\\' then
      match rest with
      | [] => none
      | e :: rest2 =>
        if e = 'u' then
          match rest2 with
          | h1 :: h2 :: h3 :: h4 :: rest3 =>
            match hexVal h1, hexVal h2, hexVal h3, hexVal h4 with
            | some a, some b, some c2, some d =>
              (parseStringBody f rest3).map
                (fun p => (Char.ofNat (a * 4096 + b * 256 + c2 * 16 + d) :: p.1, p.2))
            | _, _, _, _ => none
          | _ => none
        else
          match escChar e with
          | some ec => (parseStringBody f rest2).map (fun p => (ec :: p.1, p.2))
          | none => none
    else if c.toNat < 32 then none
    else (parseStringBody f rest).map (fun p => (c :: p.1, p.2))

/-- Nonempty run of decimal digits. -/
def digits1 (l : List Char) : Option (List Char × List Char) :=
  match l.takeWhile Char.isDigit with
  | [] => none
  | d => some (d, l.dropWhile Char.isDigit)

/-- Integer part: `0` alone, or a nonzero digit followed by digits. -/
def parseIntPart (l : List Char) : Option (List Char × List Char) :=
  match l with
  | [] => none
  | c :: r =>
    if c = '0' then some (['0'], r)
    else if c.isDigit then digits1 (c :: r)
    else none

/-- Optional fraction part `.digits`; `some ([], l)` when absent. -/
def parseFrac (l : List Char) : Option (List Char × List Char) :=
  match l with
  | c :: r =>
    if c = '.' then
      match digits1 r with
      | some (d, r2) => some ('.' :: d, r2)
      | none => none
    else some ([], l)
  | [] => some ([], l)

/-- Optional `+`/`-` sign at the head, split off. -/
def expSign (r : List Char) : List Char × List Char :=
  match r with
  | s :: x => if s = '+' ∨ s = '-' then ([s], x) else ([], s :: x)
  | [] => ([], [])

/-- Optional exponent part `[eE][+-]?digits`; `some ([], l)` when absent.
A malformed exponent tail rejects the number; observably equivalent to the
Python regex backtracking, since a leftover beginning with `e`, `E`, `.` or
a sign is an error in every JSON continuation anyway. -/
def parseExp (l : List Char) : Option (List Char × List Char) :=
  match l with
  | c :: r =>
    if c = 'e' ∨ c = 'E' then
      match digits1 (expSign r).2 with
      | some (d, r2) => some (c :: ((expSign r).1 ++ d), r2)
      | none => none
    else some ([], l)
  | [] => some ([], l)

/-- Optional leading minus sign, split off. -/
def numSign (l : List Char) : List Char × List Char :=
  match l with
  | s :: r => if s = '-' then (['-'], r) else ([], s :: r)
  | [] => ([], [])

/-- JSON number at the head of the input; returns the lexeme and the rest. -/
def parseNumber (l : List Char) : Option (List Char × List Char) :=
  let sl := numSign l
  match parseIntPart sl.2 with
  | none => none
  | some (ip, l2) =>
    match parseFrac l2 with
    | none => none
    | some (fp, l3) =>
      match parseExp l3 with
      | none => none
      | some (ep, l4) => some (sl.1 ++ (ip ++ (fp ++ ep)), l4)

mutual

/-- JSON value at the head of the input (no leading whitespace accepted). -/
def parseValue : Nat → List Char → Option (JsonValue × List Char)
  | 0, _ => none
  | _ + 1, [] => none
  | f + 1, c :: rest =>
    if c = '"' then
      (parseStringBody f rest).map (fun p => (JsonValue.str (String.mk p.1), p.2))
    else if c = '[' then parseArrayBody f (skipWs rest)
    else if c = '{' then parseObjectBody f (skipWs rest)
    else if c = 'n' then
      match rest with
      | c1 :: c2 :: c3 :: r =>
        if c1 = 'u' ∧ c2 = 'l' ∧ c3 = 'l' then some (JsonValue.null, r) else none
      | _ => none
    else if c = 't' then
      match rest with
      | c1 :: c2 :: c3 :: r =>
        if c1 = 'r' ∧ c2 = 'u' ∧ c3 = 'e' then some (JsonValue.bool true, r) else none
      | _ => none
    else if c = 'f' then
      match rest with
      | c1 :: c2 :: c3 :: c4 :: r =>
        if c1 = 'a' ∧ c2 = 'l' ∧ c3 = 's' ∧ c4 = 'e' then some (JsonValue.bool false, r)
        else none
      | _ => none
    else if c = '-' ∨ c.isDigit then
      (parseNumber (c :: rest)).map (fun p => (JsonValue.num (String.mk p.1), p.2))
    else none

/-- After `[` and whitespace: empty array or element list. -/
def parseArrayBody : Nat → List Char → Option (JsonValue × List Char)
  | 0, _ => none
  | f + 1, l =>
    match l with
    | d :: r =>
      if d = ']' then some (JsonValue.arr [], r)
      else (parseElems f (d :: r)).map (fun p => (JsonValue.arr p.1, p.2))
    | [] => none

/-- One or more comma-separated elements, ending at `]`. -/
def parseElems : Nat → List Char → Option (List JsonValue × List Char)
  | 0, _ => none
  | f + 1, l =>
    match parseValue f l with
    | none => none
    | some (v, r) =>
      match skipWs r with
      | d :: r2 =>
        if d = ',' then (parseElems f (skipWs r2)).map (fun p => (v :: p.1, p.2))
        else if d = ']' then some ([v], r2)
        else none
      | [] => none

/-- After `{` and whitespace: empty object or member list. -/
def parseObjectBody : Nat → List Char → Option (JsonValue × List Char)
  | 0, _ => none
  | f + 1, l =>
    match l with
    | d :: r =>
      if d = '}' then some (JsonValue.obj [], r)
      else (parseMembers f (d :: r)).map (fun p => (JsonValue.obj p.1, p.2))
    | [] => none

/-- One or more comma-separated `"key": value` members, ending at `}`. -/
def parseMembers : Nat → List Char → Option (List (String × JsonValue) × List Char)
  | 0, _ => none
  | f + 1, l =>
    match l with
    | q :: rest =>
      if q = '"' then
        match parseStringBody f rest with
        | none => none
        | some (ks, r1) =>
          match skipWs r1 with
          | d1 :: r2 =>
            if d1 = ':' then
              match parseValue f (skipWs r2) with
              | none => none
              | some (v, r3) =>
                match skipWs r3 with
                | d2 :: r4 =>
                  if d2 = ',' then
                    (parseMembers f (skipWs r4)).map
                      (fun p => ((String.mk ks, v) :: p.1, p.2))
                  else if d2 = '}' then some ([(String.mk ks, v)], r4)
                  else none
                | [] => none
            else none
          | [] => none
      else none
    | [] => none

end

/-- Model of Python `json.loads`: surrounding JSON whitespace is irrelevant,
the remaining text must be exactly one JSON value. -/
def json_loads (s : String) : Option JsonValue :=
  let m := stripWith isJsonWs s.data
  match parseValue (4 * m.length + 16) m with
  | some (v, []) => some v
  | _ => none

/-- The backtick character (U+0060). -/
def tick : Char := Char.ofNat 96

/-- Does the list start with three backticks? -/
def ticks3 : List Char → Bool
  | a :: b :: c :: _ => a = tick ∧ b = tick ∧ c = tick
  | _ => false

/-- Does three consecutive backticks occur anywhere in the list? -/
def hasTicks : List Char → Bool
  | [] => false
  | c :: rest => ticks3 (c :: rest) || hasTicks rest

/-- Suffix right after the first occurrence of three backticks. -/
def findOpen : List Char → Option (List Char)
  | [] => none
  | c :: rest => if ticks3 (c :: rest) then some (rest.drop 2) else findOpen rest

/-- Characters before the first occurrence of three backticks. -/
def findClose : List Char → Option (List Char)
  | [] => none
  | c :: rest => if ticks3 (c :: rest) then some [] else (findClose rest).map (c :: ·)

/-- Consume an optional case-insensitive `json` tag after the opening fence. -/
def dropJsonTag (l : List Char) : List Char :=
  match l with
  | a :: b :: c :: d :: rest =>
    if a.toLower = 'j' ∧ b.toLower = 's' ∧ c.toLower = 'o' ∧ d.toLower = 'n'
    then rest else l
  | _ => l

/-- Model of `utils.clean_json_response`: extract the stripped interior of the
first markdown fence, or return the stripped original text. -/
def clean_json_response (s : String) : String :=
  match findOpen s.data with
  | some afterOpen =>
    match findClose (dropJsonTag afterOpen) with
    | some interior => String.mk (stripWith isPyWs interior)
    | none => String.mk (stripWith isPyWs s.data)
  | none => String.mk (stripWith isPyWs s.data)

/-- Does the fence pattern of `clean_json_response` find a match? -/
def fenceFound (s : String) : Bool :=
  match findOpen s.data with
  | some afterOpen => (findClose (dropJsonTag afterOpen)).isSome
  | none => false

/-- Model of `utils.parse_llm_response`: direct parse, then parse of the
cleaned text; `none` models the propagated `JSONDecodeError`. -/
def parse_llm_response (s : String) : Option JsonValue :=
  match json_loads s with
  | some v => some v
  | none => json_loads (clean_json_response s)

/-- Python falsiness of `os.getenv` results: unset, or set to the empty
string. -/
def isBlank : Option String → Bool
  | none => true
  | some s => s = ""

/-- String prefix test (model of `str.startswith` on one pattern). -/
def startsWithL : List Char → List Char → Bool
  | _, [] => true
  | [], _ :: _ => false
  | c :: cs, p :: ps => c = p && startsWithL cs ps

/-- Does the host already carry a URL scheme?  Models
`h.startswith(('http://', 'https://'))`. -/
def hasScheme (h : String) : Bool :=
  startsWithL h.data "http://".data || startsWithL h.data "https://".data

/-- Model of `Config._get_ollama_host`: require the value, rewrite the one
literal all-interfaces address, and prefix a scheme when absent. -/
def get_ollama_host (envHost : Option String) : Except String String :=
  if isBlank envHost then
    Except.error "OLLAMA_HOST environment variable is required"
  else
    let h0 := envHost.getD ""
    let h := if h0 = "0.0.0.0:11434" then "localhost:11434" else h0
    if hasScheme h then Except.ok h
    else Except.ok ("http://" ++ h)

/-- The environment variables read by `Config.__init__`. -/
structure Env where
  ollamaHost : Option String
  ollamaModel : Option String
  folderPath : Option String
  filePath : Option String
  topP : Option String
  temperature : Option String
  penalty : Option String
  maxNewTokens : Option String

/-- The fields assigned by `Config.__init__` (paths kept as strings; the
field name `repeat_penaly` reproduces the source). -/
structure Config where
  ollama_host : String
  ollama_model : String
  folder_path : String
  file_path : String
  top_p : Option String
  temperature : Option String
  repeat_penaly : Option String
  max_new_tokens : Option String

/-- Model of `Config.__init__`: host first (inside `_get_ollama_host`), then
model, folder and file checks, in source order; optional sampling values
pass through untouched. -/
def Config.init (env : Env) : Except String Config :=
  match get_ollama_host env.ollamaHost with
  | Except.error e => Except.error e
  | Except.ok host =>
    if isBlank env.ollamaModel then
      Except.error "OLLAMA_MODEL environment variable is required"
    else if isBlank env.folderPath then
      Except.error "FOLDER_PATH environment variable is required"
    else if isBlank env.filePath then
      Except.error "FILE_PATH environment variable is required"
    else Except.ok
      { ollama_host := host
        ollama_model := env.ollamaModel.getD ""
        folder_path := env.folderPath.getD ""
        file_path := env.filePath.getD ""
        top_p := env.topP
        temperature := env.temperature
        repeat_penaly := env.penalty
        max_new_tokens := env.maxNewTokens }

/-- Swap two positions of a list (no-op when an index is out of range). -/
def swapL (l : List α) (i j : Nat) : List α :=
  match l[i]?, l[j]? with
  | some a, some b => (l.set i b).set j a
  | _, _ => l

/-- The loop of `random.shuffle`: `for i in reversed(range(1, len(x)))`,
swap position `i` with a drawn position `j ≤ i`.  The oracle `r` supplies
the draws; `r i % (i + 1)` models `_randbelow(i + 1)`. -/
def shuffleGo (r : Nat → Nat) : Nat → List α → List α
  | 0, l => l
  | i + 1, l => shuffleGo r i (swapL l (i + 1) (r (i + 1) % (i + 2)))

/-- Model of `random.shuffle` (Fisher-Yates) with an explicit random oracle. -/
def shuffle (r : Nat → Nat) (l : List α) : List α :=
  shuffleGo r (l.length - 1) l

/-- The elements of a list-shaped value (`isinstance(result, list)`). -/
def asList : JsonValue → Option (List JsonValue)
  | JsonValue.arr l => some l
  | _ => none

/-- `process_document` step 4: shuffle only list-shaped data. -/
def shuffleIfList (doShuffle : Bool) (r : Nat → Nat) (v : JsonValue) : JsonValue :=
  if doShuffle then
    match v with
    | JsonValue.arr l => JsonValue.arr (shuffle r l)
    | v => v
  else v

/-- Model of `Processor.process_document`.  The external collaborators are
oracles: `conv` is the document-to-markdown converter, `gen` the LLM call,
`writeOk` whether writing the per-document output file succeeds.  The
returned value is the data written to the per-document file and returned to
the caller; `none` models a raised exception at any step. -/
def process_document (conv : String → Option String) (gen : String → Option String)
    (writeOk : String → Bool) (shuffleQa : Bool) (rand : Nat → Nat)
    (docPath : String) : Option JsonValue :=
  match conv docPath with
  | none => none
  | some md =>
    match gen md with
    | none => none
    | some resp =>
      match parse_llm_response resp with
      | none => none
      | some data =>
        let data := shuffleIfList shuffleQa rand data
        if writeOk docPath then some data else none

def supportedExtensions : List String := [".docx", ".pptx", ".pdf", ".txt", ".md"]

/-- String suffix test (model of the glob pattern `*<ext>`). -/
def endsWithL (l suffix : List Char) : Bool :=
  startsWithL l.reverse suffix.reverse

/-- Does a directory entry match one of the five glob patterns `*<ext>`? -/
def matchesExt (name : String) : Bool :=
  supportedExtensions.any (fun e => endsWithL name.data e.data)

/-- The input folder: whether it exists and the names directly inside it. -/
structure FolderState where
  present : Bool
  entries : List String

/-- Code-point lexicographic order on char lists (Python string ordering). -/
def leChars : List Char → List Char → Bool
  | [], _ => true
  | _ :: _, [] => false
  | a :: as, b :: bs =>
    if a.toNat < b.toNat then true
    else if b.toNat < a.toNat then false
    else leChars as bs

def insertSorted (x : String) : List String → List String
  | [] => [x]
  | y :: t => if leChars x.data y.data then x :: y :: t else y :: insertSorted x t

/-- Model of `sorted(...)` on unique path strings (insertion sort; any
comparison sort is observationally equal on a duplicate-free list). -/
def sortStrings : List String → List String
  | [] => []
  | x :: t => insertSorted x (sortStrings t)

/-- Enumeration step of `process_multiple_documents`: per-extension glob
matches unioned as a set, then sorted for a deterministic order. -/
def listDocFiles (folder : FolderState) : List String :=
  sortStrings ((folder.entries.filter matchesExt).eraseDups)

/-- The `all_results` list collected by the batch loop: one entry per
document whose processing succeeded, in enumeration order. -/
def batchResults (conv gen : String → Option String) (writeOk : String → Bool)
    (shuffleQa : Bool) (randDoc : Nat → Nat → Nat) (folder : FolderState) :
    List JsonValue :=
  (listDocFiles folder).enum.filterMap
    (fun p => process_document conv gen writeOk shuffleQa (randDoc p.1) p.2)

/-- The `combined_qa` flattening: only list-shaped results contribute. -/
def combinedQaOf (results : List JsonValue) : List JsonValue :=
  (results.filterMap asList).flatten

/-- Model of `Processor.process_multiple_documents`.  Returns the list of
successful per-document results and, when written, the content of the
combined file; `randDoc i` is the random oracle consumed by document number
`i`, `randComb` the one consumed by the combined-level shuffle. -/
def process_multiple_documents (conv gen : String → Option String)
    (writeOk : String → Bool) (folder : FolderState) (outputDir : Bool)
    (shuffleQa shuffleCombined : Bool) (randDoc : Nat → Nat → Nat)
    (randComb : Nat → Nat) :
    Except String (List JsonValue × Option (List JsonValue)) :=
  if !folder.present then
    Except.error "Folder path does not exist"
  else if (listDocFiles folder).isEmpty then Except.ok ([], none)
  else
    let allResults := batchResults conv gen writeOk shuffleQa randDoc folder
    let combined :=
      if outputDir && !allResults.isEmpty then
        some (if shuffleCombined && !(combinedQaOf allResults).isEmpty
              then shuffle randComb (combinedQaOf allResults)
              else combinedQaOf allResults)
      else none
    Except.ok (allResults, combined)

/-! ### Character classes used by the parser correctness lemmas -/

/-- Characters a successful JSON value parse can start with. -/
def startChar (c : Char) : Bool :=
  c = '"' || c = '[' || c = '{' || c = 'n' || c = 't' || c = 'f' || c = '-' || c.isDigit

/-- Characters a successful JSON value parse can end with. -/
def termChar (c : Char) : Bool :=
  c = '"' || c = ']' || c = '}' || c = 'e' || c = 'l' || c.isDigit

theorem isDigit_not_pyWs {c : Char} (h : c.isDigit = true) : isPyWs c = false := by
  simp only [isPyWs, Bool.or_eq_false_iff, decide_eq_false_iff_not]
  refine ⟨⟨⟨⟨⟨?_, ?_⟩, ?_⟩, ?_⟩, ?_⟩, ?_⟩ <;> (rintro rfl; exact absurd h (by decide))

theorem jsonWs_pyWs {c : Char} (h : isJsonWs c = true) : isPyWs c = true := by
  simp only [isJsonWs, Bool.or_eq_true, decide_eq_true_eq] at h
  rcases h with ((rfl | rfl) | rfl) | rfl <;> decide

theorem isJsonWs_eq_false {c : Char} (h : isPyWs c = false) : isJsonWs c = false := by
  cases hj : isJsonWs c with
  | false => rfl
  | true => rw [jsonWs_pyWs hj] at h; exact absurd h (by simp)

theorem startChar_not_pyWs {c : Char} (h : startChar c = true) : isPyWs c = false := by
  simp only [startChar, Bool.or_eq_true, decide_eq_true_eq] at h
  rcases h with (((((((rfl | rfl) | rfl) | rfl) | rfl) | rfl) | rfl) | hd)
  · decide
  · decide
  · decide
  · decide
  · decide
  · decide
  · decide
  · exact isDigit_not_pyWs hd

theorem termChar_not_pyWs {c : Char} (h : termChar c = true) : isPyWs c = false := by
  simp only [termChar, Bool.or_eq_true, decide_eq_true_eq] at h
  rcases h with ((((rfl | rfl) | rfl) | rfl) | rfl) | hd
  · decide
  · decide
  · decide
  · decide
  · decide
  · exact isDigit_not_pyWs hd

theorem termChar_tick : termChar tick = false := by decide

/-! ### Strip lemmas -/

theorem dropWhile_append_all {p : Char → Bool} :
    ∀ {a : List Char} (y : List Char), (∀ x ∈ a, p x = true) →
      List.dropWhile p (a ++ y) = List.dropWhile p y
  | [], y, _ => rfl
  | c :: a, y, h => by
    have hc : p c = true := h c (List.mem_cons_self c a)
    simp only [List.cons_append, List.dropWhile_cons, hc, if_true]
    exact dropWhile_append_all y (fun x hx => h x (List.mem_cons_of_mem c hx))

theorem dropWhile_cons_head {p : Char → Bool} {h : Char} (t : List Char)
    (hp : p h = false) : List.dropWhile p (h :: t) = h :: t := by
  simp [List.dropWhile_cons, hp]

/-- Decompose a list around its stripped core. -/
theorem stripWith_decomp (p : Char → Bool) (l : List Char) :
    ∃ a b, l = a ++ stripWith p l ++ b ∧ (∀ x ∈ a, p x = true) ∧ (∀ x ∈ b, p x = true) := by
  refine ⟨l.takeWhile p, ((l.dropWhile p).reverse.takeWhile p).reverse, ?_, ?_, ?_⟩
  · conv_lhs => rw [← List.takeWhile_append_dropWhile p l]
    rw [List.append_assoc]
    congr 1
    conv_lhs => rw [← List.reverse_reverse (l.dropWhile p),
      ← List.takeWhile_append_dropWhile p (l.dropWhile p).reverse]
    rw [List.reverse_append]
    rfl
  · exact fun x hx => List.mem_takeWhile_imp hx
  · exact fun x hx => List.mem_takeWhile_imp (List.mem_reverse.mp hx)

/-- Stripping removes exactly the surrounding `p`-runs around a core with
non-`p` endpoints. -/
theorem stripWith_append {p : Char → Bool} {a m b : List Char}
    (ha : ∀ x ∈ a, p x = true) (hb : ∀ x ∈ b, p x = true)
    {h e : Char} (hh : m.head? = some h) (hph : p h = false)
    (he : m.getLast? = some e) (hpe : p e = false) :
    stripWith p (a ++ m ++ b) = m := by
  obtain ⟨m', rfl⟩ : ∃ m', m = h :: m' := by
    cases m with
    | nil => simp at hh
    | cons x t =>
      simp only [List.head?_cons, Option.some.injEq] at hh
      exact ⟨t, by rw [hh]⟩
  unfold stripWith
  rw [List.append_assoc, dropWhile_append_all _ ha, List.cons_append,
    dropWhile_cons_head _ hph]
  have hrev : ((h :: m') ++ b).reverse = b.reverse ++ (h :: m').reverse := by
    rw [List.reverse_append]
  rw [← List.cons_append, hrev,
    dropWhile_append_all _ (fun x hx => hb x (List.mem_reverse.mp hx))]
  have hlast : (h :: m').reverse.head? = some e := by
    rw [List.head?_reverse]; exact he
  obtain ⟨t', ht'⟩ : ∃ t', (h :: m').reverse = e :: t' := by
    cases hrv : (h :: m').reverse with
    | nil => rw [hrv] at hlast; simp at hlast
    | cons x t => rw [hrv] at hlast; simp at hlast; exact ⟨t, by rw [hlast]⟩
  rw [ht', dropWhile_cons_head _ hpe, ← ht', List.reverse_reverse]

/-- A core whose endpoints are not stripped is left unchanged. -/
theorem stripWith_eq_self {p : Char → Bool} {m : List Char}
    {h e : Char} (hh : m.head? = some h) (hph : p h = false)
    (he : m.getLast? = some e) (hpe : p e = false) :
    stripWith p m = m := by
  have := stripWith_append (p := p) (a := []) (b := [])
    (by simp) (by simp) hh hph he hpe
  simpa using this

/-! ### Consumption shape of the JSON parser -/

theorem exists_concat_of_getLast? {l : List Char} {ch : Char}
    (h : l.getLast? = some ch) : ∃ c, l = c ++ [ch] :=
  ⟨l.dropLast, (List.dropLast_append_getLast? ch (Option.mem_def.mpr h)).symm⟩

theorem getLast?_mem' {l : List Char} {ch : Char} (h : l.getLast? = some ch) :
    ch ∈ l := by
  obtain ⟨c, rfl⟩ := exists_concat_of_getLast? h
  simp

theorem digits1_spec {l d r : List Char} (h : digits1 l = some (d, r)) :
    l = d ++ r ∧ d ≠ [] ∧ ∀ x ∈ d, x.isDigit = true := by
  unfold digits1 at h
  cases htw : l.takeWhile Char.isDigit with
  | nil => rw [htw] at h; exact absurd h (by simp)
  | cons x t =>
    rw [htw] at h
    injection h with h'
    injection h' with h1 h2
    subst h1; subst h2
    refine ⟨?_, by simp, ?_⟩
    · rw [← htw]; exact (List.takeWhile_append_dropWhile Char.isDigit l).symm
    · intro y hy
      exact List.mem_takeWhile_imp (htw ▸ hy)

theorem digits1_last {l d r : List Char} (h : digits1 l = some (d, r)) :
    ∃ ch, d.getLast? = some ch ∧ ch.isDigit = true := by
  obtain ⟨-, hne, hall⟩ := digits1_spec h
  cases hgl : d.getLast? with
  | none => exact absurd (List.getLast?_eq_none_iff.mp hgl) hne
  | some ch => exact ⟨ch, rfl, hall ch (getLast?_mem' hgl)⟩

theorem parseIntPart_spec {l ip r : List Char} (h : parseIntPart l = some (ip, r)) :
    l = ip ++ r ∧ ∃ ch, ip.getLast? = some ch ∧ ch.isDigit = true := by
  unfold parseIntPart at h
  cases l with
  | nil => exact absurd h (by simp)
  | cons c cr =>
    simp only at h
    split_ifs at h with h0 hd
    · injection h with h'
      injection h' with h1 h2
      subst h1; subst h2
      subst h0
      exact ⟨rfl, '0', rfl, by decide⟩
    · obtain ⟨h1, -, h3⟩ := digits1_spec h
      exact ⟨h1, digits1_last h⟩

theorem parseFrac_spec {l fp r : List Char} (h : parseFrac l = some (fp, r)) :
    l = fp ++ r ∧ (fp = [] ∨ ∃ ch, fp.getLast? = some ch ∧ ch.isDigit = true) := by
  unfold parseFrac at h
  cases l with
  | nil =>
    injection h with h'
    injection h' with h1 h2
    subst h1; subst h2
    exact ⟨rfl, Or.inl rfl⟩
  | cons c cr =>
    simp only at h
    split_ifs at h with hdot
    · cases hd : digits1 cr with
      | none => rw [hd] at h; exact absurd h (by simp)
      | some p =>
        obtain ⟨d, r2⟩ := p
        rw [hd] at h
        injection h with h'
        injection h' with h1 h2
        subst h1; subst h2
        obtain ⟨hsplit, -, -⟩ := digits1_spec hd
        obtain ⟨ch, hlast, hdig⟩ := digits1_last hd
        obtain ⟨dpre, rfl⟩ := exists_concat_of_getLast? hlast
        refine ⟨by rw [hdot, hsplit]; rfl, Or.inr ⟨ch, ?_, hdig⟩⟩
        rw [show ('.' :: (dpre ++ [ch])) = ('.' :: dpre) ++ [ch] from rfl]
        exact List.getLast?_concat _
    · injection h with h'
      injection h' with h1 h2
      subst h1; subst h2
      exact ⟨rfl, Or.inl rfl⟩

theorem expSign_split (r : List Char) : r = (expSign r).1 ++ (expSign r).2 := by
  unfold expSign
  cases r with
  | nil => rfl
  | cons s x =>
    by_cases hs : s = '+' ∨ s = '-'
    · simp [hs]
    · simp [hs]

theorem parseExp_spec {l ep r : List Char} (h : parseExp l = some (ep, r)) :
    l = ep ++ r ∧ (ep = [] ∨ ∃ ch, ep.getLast? = some ch ∧ ch.isDigit = true) := by
  unfold parseExp at h
  cases l with
  | nil =>
    injection h with h'
    injection h' with h1 h2
    subst h1; subst h2
    exact ⟨rfl, Or.inl rfl⟩
  | cons c cr =>
    simp only at h
    split_ifs at h with he
    · cases hd : digits1 (expSign cr).2 with
      | none => rw [hd] at h; exact absurd h (by simp)
      | some p =>
        obtain ⟨d, r2⟩ := p
        rw [hd] at h
        injection h with h'
        injection h' with h1 h2
        subst h1; subst h2
        obtain ⟨hds, hdne, -⟩ := digits1_spec hd
        obtain ⟨ch, hlast, hdig⟩ := digits1_last hd
        constructor
        · conv_lhs => rw [show cr = (expSign cr).1 ++ (expSign cr).2 from expSign_split cr, hds]
          simp
        · refine Or.inr ⟨ch, ?_, hdig⟩
          obtain ⟨dpre, rfl⟩ := exists_concat_of_getLast? hlast
          rw [show (c :: ((expSign cr).1 ++ (dpre ++ [ch])))
              = (c :: ((expSign cr).1 ++ dpre)) ++ [ch] by simp]
          exact List.getLast?_concat _
    · injection h with h'
      injection h' with h1 h2
      subst h1; subst h2
      exact ⟨rfl, Or.inl rfl⟩

theorem numSign_split (l : List Char) : l = (numSign l).1 ++ (numSign l).2 := by
  unfold numSign
  cases l with
  | nil => rfl
  | cons s x =>
    by_cases hs : s = '-'
    · simp [hs]
    · simp [hs]

theorem last_append_or {P : Char → Prop} {u v : List Char}
    (hu : ∃ ch, u.getLast? = some ch ∧ P ch)
    (hv : v = [] ∨ ∃ ch, v.getLast? = some ch ∧ P ch) :
    ∃ ch, (u ++ v).getLast? = some ch ∧ P ch := by
  rcases hv with rfl | ⟨ch, h1, h2⟩
  · simpa using hu
  · have hvne : v ≠ [] := by rintro rfl; simp at h1
    exact ⟨ch, by rw [List.getLast?_append_of_ne_nil _ hvne]; exact h1, h2⟩

theorem last_append_or2 {P : Char → Prop} {u v : List Char}
    (hu : u = [] ∨ ∃ ch, u.getLast? = some ch ∧ P ch)
    (hv : v = [] ∨ ∃ ch, v.getLast? = some ch ∧ P ch) :
    u ++ v = [] ∨ ∃ ch, (u ++ v).getLast? = some ch ∧ P ch := by
  rcases hu with rfl | hu
  · simpa using hv
  · exact Or.inr (last_append_or hu hv)

theorem parseNumber_last {l lex r : List Char} (h : parseNumber l = some (lex, r)) :
    ∃ c ch, l = c ++ ch :: r ∧ ch.isDigit = true := by
  unfold parseNumber at h
  simp only at h
  cases hip : parseIntPart (numSign l).2 with
  | none => rw [hip] at h; exact absurd h (by simp)
  | some pip =>
    obtain ⟨ip, l2⟩ := pip
    rw [hip] at h
    simp only at h
    cases hfp : parseFrac l2 with
    | none => rw [hfp] at h; exact absurd h (by simp)
    | some pfp =>
      obtain ⟨fp, l3⟩ := pfp
      rw [hfp] at h
      simp only at h
      cases hep : parseExp l3 with
      | none => rw [hep] at h; exact absurd h (by simp)
      | some pep =>
        obtain ⟨ep, l4⟩ := pep
        rw [hep] at h
        simp only at h
        injection h with h'
        injection h' with h1 h2
        subst h1; subst h2
        obtain ⟨hip1, hip2⟩ := parseIntPart_spec hip
        obtain ⟨hfp1, hfp2⟩ := parseFrac_spec hfp
        obtain ⟨hep1, hep2⟩ := parseExp_spec hep
        have hmid : ∃ ch, (ip ++ (fp ++ ep)).getLast? = some ch ∧ Char.isDigit ch = true :=
          last_append_or hip2 (last_append_or2 hfp2 hep2)
        obtain ⟨ch, hlast, hdig⟩ := hmid
        have hmidne : ip ++ (fp ++ ep) ≠ [] := by rintro he; rw [he] at hlast; simp at hlast
        have hfull : ((numSign l).1 ++ (ip ++ (fp ++ ep))).getLast? = some ch := by
          rw [List.getLast?_append_of_ne_nil _ hmidne]; exact hlast
        obtain ⟨cpre, hcpre⟩ := exists_concat_of_getLast? hfull
        refine ⟨cpre, ch, ?_, hdig⟩
        conv_lhs => rw [numSign_split l, hip1, hfp1, hep1]
        rw [← List.append_assoc, ← List.append_assoc, ← List.append_assoc] at *
        rw [hcpre]
        simp

theorem parseStringBody_consumed :
    ∀ {f : Nat} {l cs r : List Char}, parseStringBody f l = some (cs, r) →
      ∃ c, l = c ++ '"' :: r := by
  intro f
  induction f with
  | zero => intro l cs r h; exact absurd h (by simp [parseStringBody])
  | succ f ih =>
    intro l cs r h
    cases l with
    | nil => exact absurd h (by simp [parseStringBody])
    | cons c rest =>
      rw [parseStringBody.eq_def] at h
      simp only at h
      split_ifs at h with hq hbs hctl
      · injection h with h'
        injection h' with h1 h2
        subst h2; subst hq
        exact ⟨[], rfl⟩
      · cases rest with
        | nil => exact absurd h (by simp)
        | cons e rest2 =>
          simp only at h
          split_ifs at h with hu
          · cases rest2 with
            | nil => exact absurd h (by simp)
            | cons a1 t1 =>
              cases t1 with
              | nil => exact absurd h (by simp)
              | cons a2 t2 =>
                cases t2 with
                | nil => exact absurd h (by simp)
                | cons a3 t3 =>
                  cases t3 with
                  | nil => exact absurd h (by simp)
                  | cons a4 rest3 =>
                    simp only at h
                    cases hv1 : hexVal a1 with
                    | none => rw [hv1] at h; exact absurd h (by simp)
                    | some n1 =>
                    rw [hv1] at h
                    cases hv2 : hexVal a2 with
                    | none => rw [hv2] at h; exact absurd h (by simp)
                    | some n2 =>
                    rw [hv2] at h
                    cases hv3 : hexVal a3 with
                    | none => rw [hv3] at h; exact absurd h (by simp)
                    | some n3 =>
                    rw [hv3] at h
                    cases hv4 : hexVal a4 with
                    | none => rw [hv4] at h; exact absurd h (by simp)
                    | some n4 =>
                    rw [hv4] at h
                    simp only at h
                    obtain ⟨⟨cs', r'⟩, hp, heq⟩ := Option.map_eq_some'.mp h
                    injection heq with he1 he2
                    subst he2
                    obtain ⟨cmid, hcm⟩ := ih hp
                    subst hbs; subst hu
                    exact ⟨'\\' :: 'u' :: a1 :: a2 :: a3 :: a4 :: cmid, by rw [hcm]; rfl⟩
          · cases hec : escChar e with
            | none => rw [hec] at h; exact absurd h (by simp)
            | some ec =>
              rw [hec] at h
              obtain ⟨⟨cs', r'⟩, hp, heq⟩ := Option.map_eq_some'.mp h
              injection heq with he1 he2
              subst he2
              obtain ⟨cmid, hcm⟩ := ih hp
              subst hbs
              exact ⟨'\\' :: e :: cmid, by rw [hcm]; rfl⟩
      · obtain ⟨⟨cs', r'⟩, hp, heq⟩ := Option.map_eq_some'.mp h
        injection heq with he1 he2
        subst he2
        obtain ⟨cmid, hcm⟩ := ih hp
        exact ⟨c :: cmid, by rw [hcm]; rfl⟩

theorem skipWs_split (l : List Char) : l = l.takeWhile isJsonWs ++ skipWs l :=
  (List.takeWhile_append_dropWhile _ _).symm

/-- Last consumed character of every successful parse: a value ends in a
terminator character, element and member lists end at their closing bracket. -/
theorem parse_last (f : Nat) :
    (∀ l v r, parseValue f l = some (v, r) → ∃ c ch, l = c ++ ch :: r ∧ termChar ch = true)
  ∧ (∀ l v r, parseArrayBody f l = some (v, r) → ∃ c, l = c ++ ']' :: r)
  ∧ (∀ l vs r, parseElems f l = some (vs, r) → ∃ c, l = c ++ ']' :: r)
  ∧ (∀ l v r, parseObjectBody f l = some (v, r) → ∃ c, l = c ++ '}' :: r)
  ∧ (∀ l ms r, parseMembers f l = some (ms, r) → ∃ c, l = c ++ '}' :: r) := by
  induction f with
  | zero =>
    refine ⟨?_, ?_, ?_, ?_, ?_⟩ <;>
      (intro l x r h; rw [show (0 : Nat) = 0 from rfl] at h) <;>
      first
      | exact absurd h (by rw [parseValue.eq_def]; simp)
      | exact absurd h (by rw [parseArrayBody.eq_def]; simp)
      | exact absurd h (by rw [parseElems.eq_def]; simp)
      | exact absurd h (by rw [parseObjectBody.eq_def]; simp)
      | exact absurd h (by rw [parseMembers.eq_def]; simp)
  | succ f ih =>
    obtain ⟨ihV, ihA, ihE, ihO, ihM⟩ := ih
    refine ⟨?_, ?_, ?_, ?_, ?_⟩
    · -- parseValue
      intro l v r h
      cases l with
      | nil => exact absurd h (by rw [parseValue.eq_def]; simp)
      | cons c rest =>
        rw [parseValue.eq_def] at h
        simp only at h
        split_ifs at h with h1 h2 h3 h4 h5 h6 h7
        · obtain ⟨⟨cs, r'⟩, hp, heq⟩ := Option.map_eq_some'.mp h
          injection heq with heq1 heq2
          subst heq2
          obtain ⟨cmid, hcm⟩ := parseStringBody_consumed hp
          subst h1
          exact ⟨'"' :: cmid, '"', by rw [hcm]; rfl, by decide⟩
        · obtain ⟨cm, hcm⟩ := ihA _ _ _ h
          subst h2
          refine ⟨'[' :: (rest.takeWhile isJsonWs ++ cm), ']', ?_, by decide⟩
          conv_lhs => rw [skipWs_split rest, hcm]
          simp
        · obtain ⟨cm, hcm⟩ := ihO _ _ _ h
          subst h3
          refine ⟨'{' :: (rest.takeWhile isJsonWs ++ cm), '}', ?_, by decide⟩
          conv_lhs => rw [skipWs_split rest, hcm]
          simp
        · cases rest with
          | nil => exact absurd h (by simp)
          | cons c1 t1 =>
            cases t1 with
            | nil => exact absurd h (by simp)
            | cons c2 t2 =>
              cases t2 with
              | nil => exact absurd h (by simp)
              | cons c3 t3 =>
                simp only at h
                split_ifs at h with hlit
                · obtain ⟨hu, hl1, hl2⟩ := hlit
                  injection h with h'
                  injection h' with hv hr
                  subst h4; subst hu; subst hl1; subst hl2; subst hr
                  exact ⟨['n', 'u', 'l'], 'l', rfl, by decide⟩
        · cases rest with
          | nil => exact absurd h (by simp)
          | cons c1 t1 =>
            cases t1 with
            | nil => exact absurd h (by simp)
            | cons c2 t2 =>
              cases t2 with
              | nil => exact absurd h (by simp)
              | cons c3 t3 =>
                simp only at h
                split_ifs at h with hlit
                · obtain ⟨hu, hl1, hl2⟩ := hlit
                  injection h with h'
                  injection h' with hv hr
                  subst h5; subst hu; subst hl1; subst hl2; subst hr
                  exact ⟨['t', 'r', 'u'], 'e', rfl, by decide⟩
        · cases rest with
          | nil => exact absurd h (by simp)
          | cons c1 t1 =>
            cases t1 with
            | nil => exact absurd h (by simp)
            | cons c2 t2 =>
              cases t2 with
              | nil => exact absurd h (by simp)
              | cons c3 t3 =>
                cases t3 with
                | nil => exact absurd h (by simp)
                | cons c4 t4 =>
                  simp only at h
                  split_ifs at h with hlit
                  · obtain ⟨hu, hl1, hl2, hl3⟩ := hlit
                    injection h with h'
                    injection h' with hv hr
                    subst h6; subst hu; subst hl1; subst hl2; subst hl3; subst hr
                    exact ⟨['f', 'a', 'l', 's'], 'e', rfl, by decide⟩
        · obtain ⟨⟨lex, r'⟩, hp, heq⟩ := Option.map_eq_some'.mp h
          injection heq with heq1 heq2
          subst heq2
          obtain ⟨cm, ch, hcm, hdig⟩ := parseNumber_last hp
          exact ⟨cm, ch, hcm, by simp [termChar, hdig]⟩
    · -- parseArrayBody
      intro l v r h
      cases l with
      | nil => exact absurd h (by rw [parseArrayBody.eq_def]; simp)
      | cons d t =>
        rw [parseArrayBody.eq_def] at h
        simp only at h
        split_ifs at h with hd
        · injection h with h'
          injection h' with hv hr
          subst hd; subst hr
          exact ⟨[], rfl⟩
        · obtain ⟨⟨es, r'⟩, hp, heq⟩ := Option.map_eq_some'.mp h
          injection heq with heq1 heq2
          subst heq2
          exact ihE _ _ _ hp
    · -- parseElems
      intro l vs r h
      rw [parseElems.eq_def] at h
      simp only at h
      cases hv : parseValue f l with
      | none => rw [hv] at h; exact absurd h (by simp)
      | some p0 =>
        obtain ⟨v0, r0⟩ := p0
        rw [hv] at h
        simp only at h
        obtain ⟨c0, ch, hl0, -⟩ := ihV _ _ _ hv
        cases hs : skipWs r0 with
        | nil => rw [hs] at h; exact absurd h (by simp)
        | cons d r2 =>
          rw [hs] at h
          simp only at h
          split_ifs at h with hcm hrb
          · obtain ⟨⟨vs', r'⟩, hp, heq⟩ := Option.map_eq_some'.mp h
            injection heq with heq1 heq2
            subst heq2
            obtain ⟨cm2, hcm2⟩ := ihE _ _ _ hp
            subst hcm
            refine ⟨c0 ++ ch :: (r0.takeWhile isJsonWs ++ ',' :: (r2.takeWhile isJsonWs ++ cm2)), ?_⟩
            rw [hl0]
            conv_lhs => rw [skipWs_split r0, hs, skipWs_split r2, hcm2]
            simp
          · injection h with h'
            injection h' with hv1 hr
            subst hrb; subst hr
            refine ⟨c0 ++ ch :: r0.takeWhile isJsonWs, ?_⟩
            rw [hl0]
            conv_lhs => rw [skipWs_split r0, hs]
            simp
    · -- parseObjectBody
      intro l v r h
      cases l with
      | nil => exact absurd h (by rw [parseObjectBody.eq_def]; simp)
      | cons d t =>
        rw [parseObjectBody.eq_def] at h
        simp only at h
        split_ifs at h with hd
        · injection h with h'
          injection h' with hv hr
          subst hd; subst hr
          exact ⟨[], rfl⟩
        · obtain ⟨⟨ms, r'⟩, hp, heq⟩ := Option.map_eq_some'.mp h
          injection heq with heq1 heq2
          subst heq2
          exact ihM _ _ _ hp
    · -- parseMembers
      intro l ms r h
      cases l with
      | nil => exact absurd h (by rw [parseMembers.eq_def]; simp)
      | cons q rest =>
        rw [parseMembers.eq_def] at h
        simp only at h
        split_ifs at h with hq
        · cases hsb : parseStringBody f rest with
          | none => rw [hsb] at h; exact absurd h (by simp)
          | some pk =>
            obtain ⟨ks, r1⟩ := pk
            rw [hsb] at h
            simp only at h
            obtain ⟨cK, hcK⟩ := parseStringBody_consumed hsb
            cases hs1 : skipWs r1 with
            | nil => rw [hs1] at h; exact absurd h (by simp)
            | cons d1 r2 =>
              rw [hs1] at h
              simp only at h
              split_ifs at h with hcol
              · cases hpv : parseValue f (skipWs r2) with
                | none => rw [hpv] at h; exact absurd h (by simp)
                | some pv =>
                  obtain ⟨v, r3⟩ := pv
                  rw [hpv] at h
                  simp only at h
                  obtain ⟨cV, chV, hcV, -⟩ := ihV _ _ _ hpv
                  cases hs3 : skipWs r3 with
                  | nil => rw [hs3] at h; exact absurd h (by simp)
                  | cons d2 r4 =>
                    rw [hs3] at h
                    simp only at h
                    split_ifs at h with hcm2 hrb2
                    · obtain ⟨⟨ms', r'⟩, hp, heq⟩ := Option.map_eq_some'.mp h
                      injection heq with heq1 heq2
                      subst heq2
                      obtain ⟨cM, hcM⟩ := ihM _ _ _ hp
                      subst hq; subst hcol; subst hcm2
                      refine ⟨'"' :: (cK ++ '"' :: (r1.takeWhile isJsonWs ++ ':' ::
                        (r2.takeWhile isJsonWs ++ (cV ++ chV :: (r3.takeWhile isJsonWs ++ ',' ::
                          (r4.takeWhile isJsonWs ++ cM)))))), ?_⟩
                      conv_lhs => rw [hcK, skipWs_split r1, hs1, skipWs_split r2, hcV,
                        skipWs_split r3, hs3, skipWs_split r4, hcM]
                      simp
                    · injection h with h'
                      injection h' with hv1 hr
                      subst hq; subst hcol; subst hrb2; subst hr
                      refine ⟨'"' :: (cK ++ '"' :: (r1.takeWhile isJsonWs ++ ':' ::
                        (r2.takeWhile isJsonWs ++ (cV ++ chV :: r3.takeWhile isJsonWs)))), ?_⟩
                      conv_lhs => rw [hcK, skipWs_split r1, hs1, skipWs_split r2, hcV,
                        skipWs_split r3, hs3]
                      simp

/-- First character of every successful value parse. -/
theorem parseValue_head {f : Nat} {l : List Char} {v : JsonValue} {r : List Char}
    (h : parseValue f l = some (v, r)) : ∃ ch t, l = ch :: t ∧ startChar ch = true := by
  cases f with
  | zero => exact absurd h (by rw [parseValue.eq_def]; simp)
  | succ f =>
    cases l with
    | nil => exact absurd h (by rw [parseValue.eq_def]; simp)
    | cons c rest =>
      refine ⟨c, rest, rfl, ?_⟩
      rw [parseValue.eq_def] at h
      simp only at h
      split_ifs at h with h1 h2 h3 h4 h5 h6 h7
      · subst h1; decide
      · subst h2; decide
      · subst h3; decide
      · subst h4; decide
      · subst h5; decide
      · subst h6; decide
      · rcases h7 with rfl | hd
        · decide
        · simp [startChar, hd]

/-- A value parse that ends exactly at the end of input pins down the last
character of the input as a terminator character. -/
theorem parseValue_last_exact {f : Nat} {l : List Char} {v : JsonValue}
    (h : parseValue f l = some (v, [])) :
    ∃ ch, l.getLast? = some ch ∧ termChar ch = true := by
  obtain ⟨c, ch, hl, hterm⟩ := (parse_last f).1 l v [] h
  exact ⟨ch, by rw [hl, List.getLast?_concat], hterm⟩

theorem json_loads_eq (s : String) :
    json_loads s =
      match parseValue (4 * (stripWith isJsonWs s.data).length + 16)
          (stripWith isJsonWs s.data) with
      | some (v, []) => some v
      | _ => none := rfl

/-- If the JSON-stripped input ends in a non-terminator character, the parse
fails. -/
theorem json_loads_none_of_bad_last {s : String} {ch : Char}
    (hlast : (stripWith isJsonWs s.data).getLast? = some ch)
    (hbad : termChar ch = false) : json_loads s = none := by
  rw [json_loads_eq]
  cases hp : parseValue (4 * (stripWith isJsonWs s.data).length + 16)
      (stripWith isJsonWs s.data) with
  | none => rfl
  | some p =>
    obtain ⟨v, r⟩ := p
    cases r with
    | nil =>
      obtain ⟨ch', hl', ht'⟩ := parseValue_last_exact hp
      rw [hlast] at hl'
      injection hl' with he
      rw [← he] at ht'
      rw [ht'] at hbad
      exact absurd hbad (by simp)
    | cons x xs => rfl

/-- Any input ending in a backtick fails to parse as JSON. -/
theorem json_loads_none_of_tick_end {s : String}
    (h : s.data.getLast? = some tick) : json_loads s = none := by
  obtain ⟨a, b, hdec, hpa, hpb⟩ := stripWith_decomp isJsonWs s.data
  have hb : b = [] := by
    cases hbe : b with
    | nil => rfl
    | cons x xs =>
      exfalso
      have hlb : b.getLast? = some tick := by
        rw [hdec] at h
        rwa [List.getLast?_append_of_ne_nil _ (by rw [hbe]; simp)] at h
      exact absurd (hpb tick (getLast?_mem' hlb)) (by decide)
  subst hb
  rw [List.append_nil] at hdec
  have hm : stripWith isJsonWs s.data ≠ [] := by
    intro hme
    rw [hme, List.append_nil] at hdec
    rw [hdec] at h
    exact absurd (hpa tick (getLast?_mem' h)) (by decide)
  have hlast : (stripWith isJsonWs s.data).getLast? = some tick := by
    rw [hdec, List.getLast?_append_of_ne_nil _ hm] at h
    exact h
  exact json_loads_none_of_bad_last hlast termChar_tick

theorem json_loads_some_elim {s : String} {v : JsonValue} (h : json_loads s = some v) :
    parseValue (4 * (stripWith isJsonWs s.data).length + 16) (stripWith isJsonWs s.data)
      = some (v, []) := by
  rw [json_loads_eq] at h
  cases hp : parseValue (4 * (stripWith isJsonWs s.data).length + 16)
      (stripWith isJsonWs s.data) with
  | none => rw [hp] at h; exact absurd h (by simp)
  | some p =>
    obtain ⟨v', r⟩ := p
    rw [hp] at h
    cases r with
    | nil =>
      simp only at h
      injection h with he
      rw [he]
    | cons x xs =>
      simp only at h
      exact absurd h (by simp)

/-- On a successfully parsed input, Python `strip()` and JSON-whitespace
stripping agree: the core starts and ends with non-whitespace. -/
theorem strip_py_eq_json {s : String} {v : JsonValue} (h : json_loads s = some v) :
    stripWith isPyWs s.data = stripWith isJsonWs s.data := by
  have hp := json_loads_some_elim h
  obtain ⟨ch0, t0, hm, hstart⟩ := parseValue_head hp
  obtain ⟨che, hlast, hterm⟩ := parseValue_last_exact hp
  obtain ⟨a, b, hdec, hpa, hpb⟩ := stripWith_decomp isJsonWs s.data
  have hh : (stripWith isJsonWs s.data).head? = some ch0 := by rw [hm]; rfl
  conv_lhs => rw [hdec]
  exact stripWith_append (fun x hx => jsonWs_pyWs (hpa x hx))
    (fun x hx => jsonWs_pyWs (hpb x hx)) hh (startChar_not_pyWs hstart)
    hlast (termChar_not_pyWs hterm)

/-- Parsing is invariant under Python `strip()` on parseable input. -/
theorem json_loads_mk_pyStrip {s : String} {v : JsonValue} (h : json_loads s = some v) :
    json_loads (String.mk (stripWith isPyWs s.data)) = some v := by
  have hp := json_loads_some_elim h
  obtain ⟨ch0, t0, hm, hstart⟩ := parseValue_head hp
  obtain ⟨che, hlast, hterm⟩ := parseValue_last_exact hp
  have hh : (stripWith isJsonWs s.data).head? = some ch0 := by rw [hm]; rfl
  have hself : stripWith isJsonWs (stripWith isJsonWs s.data) = stripWith isJsonWs s.data :=
    stripWith_eq_self hh (isJsonWs_eq_false (startChar_not_pyWs hstart))
      hlast (isJsonWs_eq_false (termChar_not_pyWs hterm))
  rw [json_loads_eq]
  rw [show (String.mk (stripWith isPyWs s.data)).data = stripWith isPyWs s.data from rfl,
    strip_py_eq_json h, hself, hp]

/-! ### Fence-scan lemmas -/

theorem ticks3_false_of_head {a : Char} (ha : a ≠ tick) (l : List Char) :
    ticks3 (a :: l) = false := by
  cases l with
  | nil => rfl
  | cons b t =>
    cases t with
    | nil => rfl
    | cons c u =>
      simp only [ticks3, decide_eq_false_iff_not]
      rintro ⟨h1, -, -⟩
      exact ha h1

theorem ticks3_false_of_second {a b : Char} (hb : b ≠ tick) (l : List Char) :
    ticks3 (a :: b :: l) = false := by
  cases l with
  | nil => rfl
  | cons c u =>
    simp only [ticks3, decide_eq_false_iff_not]
    rintro ⟨-, h2, -⟩
    exact hb h2

theorem ticks3_false_of_third {c : Char} (hc : c ≠ tick) (a b : Char) (l : List Char) :
    ticks3 (a :: b :: c :: l) = false := by
  simp only [ticks3, decide_eq_false_iff_not]
  rintro ⟨-, -, h3⟩
  exact hc h3

theorem hasTicks_cons (c : Char) (l : List Char) :
    hasTicks (c :: l) = (ticks3 (c :: l) || hasTicks l) := rfl

theorem hasTicks_concat {c : Char} (hc : c ≠ tick) :
    ∀ l : List Char, hasTicks (l ++ [c]) = hasTicks l
  | [] => by
    rw [List.nil_append, hasTicks_cons]
    rfl
  | a :: t => by
    rw [List.cons_append, hasTicks_cons, hasTicks_cons a t, hasTicks_concat hc t]
    congr 1
    cases t with
    | nil =>
      rw [List.nil_append]
      rfl
    | cons b u =>
      cases u with
      | nil =>
        simp only [List.cons_append, List.nil_append]
        rw [ticks3_false_of_third hc]
        rfl
      | cons c2 w => rfl

theorem findOpen_append :
    ∀ {pre : List Char} (rest : List Char), hasTicks pre = false →
      pre.getLast? ≠ some tick →
      findOpen (pre ++ tick :: tick :: tick :: rest) = some rest
  | [], rest, _, _ => by
    rw [List.nil_append]
    unfold findOpen
    rw [if_pos (by simp [ticks3])]
    rfl
  | p :: ps, rest, ht, hl => by
    have hsub : hasTicks ps = false := by
      rw [hasTicks_cons, Bool.or_eq_false_iff] at ht
      exact ht.2
    have ht3 : ticks3 (p :: (ps ++ tick :: tick :: tick :: rest)) = false := by
      cases ps with
      | nil =>
        have hp : p ≠ tick := by
          intro he; exact hl (by rw [he]; rfl)
        rw [List.nil_append]
        exact ticks3_false_of_head hp _
      | cons q ps' =>
        cases ps' with
        | nil =>
          have hq : q ≠ tick := by
            intro he; exact hl (by rw [he]; rfl)
          rw [List.cons_append, List.nil_append]
          exact ticks3_false_of_second hq _
        | cons q2 ps'' =>
          have : ticks3 (p :: q :: q2 :: ps'') = false := by
            rw [hasTicks_cons, Bool.or_eq_false_iff] at ht
            exact ht.1
          simpa [ticks3] using this
    rw [List.cons_append]
    unfold findOpen
    rw [if_neg (by rw [ht3]; simp)]
    apply findOpen_append rest hsub
    cases ps with
    | nil => simp
    | cons q ps' =>
      intro he
      exact hl (by rw [List.getLast?_cons_cons]; exact he)

theorem findClose_append :
    ∀ {m : List Char} (rest : List Char), hasTicks m = false →
      m.getLast? ≠ some tick →
      findClose (m ++ tick :: tick :: tick :: rest) = some m
  | [], rest, _, _ => by
    rw [List.nil_append]
    unfold findClose
    rw [if_pos (by simp [ticks3])]
  | p :: ps, rest, ht, hl => by
    have hsub : hasTicks ps = false := by
      rw [hasTicks_cons, Bool.or_eq_false_iff] at ht
      exact ht.2
    have ht3 : ticks3 (p :: (ps ++ tick :: tick :: tick :: rest)) = false := by
      cases ps with
      | nil =>
        have hp : p ≠ tick := by
          intro he; exact hl (by rw [he]; rfl)
        rw [List.nil_append]
        exact ticks3_false_of_head hp _
      | cons q ps' =>
        cases ps' with
        | nil =>
          have hq : q ≠ tick := by
            intro he; exact hl (by rw [he]; rfl)
          rw [List.cons_append, List.nil_append]
          exact ticks3_false_of_second hq _
        | cons q2 ps'' =>
          have : ticks3 (p :: q :: q2 :: ps'') = false := by
            rw [hasTicks_cons, Bool.or_eq_false_iff] at ht
            exact ht.1
          simpa [ticks3] using this
    rw [List.cons_append]
    unfold findClose
    rw [if_neg (by rw [ht3]; simp)]
    have hrec : findClose (ps ++ tick :: tick :: tick :: rest) = some ps := by
      apply findClose_append rest hsub
      cases ps with
      | nil => simp
      | cons q ps' =>
        intro he
        exact hl (by rw [List.getLast?_cons_cons]; exact he)
    rw [hrec]
    rfl

theorem stripWith_cons_ws {p : Char → Bool} {c : Char} (hc : p c = true)
    (l : List Char) : stripWith p (c :: l) = stripWith p l := by
  unfold stripWith
  rw [List.dropWhile_cons, if_pos hc]

theorem stripWith_concat_ws {p : Char → Bool} {c : Char} (hc : p c = true)
    (l : List Char) : stripWith p (l ++ [c]) = stripWith p l := by
  unfold stripWith
  rw [List.dropWhile_append]
  cases hde : (l.dropWhile p).isEmpty with
  | true =>
    rw [if_pos rfl]
    rw [List.isEmpty_iff] at hde
    rw [hde]
    simp [List.dropWhile_cons, hc]
  | false =>
    rw [if_neg (by simp)]
    rw [List.reverse_append]
    simp only [List.reverse_cons, List.reverse_nil, List.nil_append, List.singleton_append]
    rw [List.dropWhile_cons, if_pos hc]

theorem dropJsonTag_cons_ne {a : Char} (ha : a.toLower ≠ 'j') (l : List Char) :
    dropJsonTag (a :: l) = a :: l := by
  unfold dropJsonTag
  cases l with
  | nil => rfl
  | cons b l2 =>
    cases l2 with
    | nil => rfl
    | cons c l3 =>
      cases l3 with
      | nil => rfl
      | cons d l4 =>
        simp only
        rw [if_neg]
        rintro ⟨h1, -⟩
        exact ha h1

theorem dropJsonTag_tag {c1 c2 c3 c4 : Char}
    (h : [c1, c2, c3, c4].map Char.toLower = ['j', 's', 'o', 'n']) (l : List Char) :
    dropJsonTag (c1 :: c2 :: c3 :: c4 :: l) = l := by
  simp only [List.map_cons, List.map_nil, List.cons.injEq, and_true] at h
  obtain ⟨h1, h2, h3, h4⟩ := h
  unfold dropJsonTag
  simp only
  rw [if_pos ⟨h1, h2, h3, h4⟩]

/-- The fence scan on `pre ++ fence(tag) ++ t ++ closing-fence` extracts
exactly the stripped `t`, provided no stray triple backtick interferes. -/
theorem clean_wrapped {pre tag t : List Char}
    (htag : tag = [] ∨ tag.map Char.toLower = ['j', 's', 'o', 'n'])
    (htF : hasTicks t = false)
    (hpF : hasTicks pre = false)
    (hpB : pre.getLast? ≠ some tick) :
    clean_json_response (String.mk (pre ++ tick :: tick :: tick ::
        (tag ++ '\n' :: (t ++ '\n' :: tick :: tick :: tick :: [])))) =
      String.mk (stripWith isPyWs t) := by
  have hOpen : findOpen (pre ++ tick :: tick :: tick ::
      (tag ++ '\n' :: (t ++ '\n' :: tick :: tick :: tick :: []))) =
      some (tag ++ '\n' :: (t ++ '\n' :: tick :: tick :: tick :: [])) :=
    findOpen_append _ hpF hpB
  have hTag : dropJsonTag (tag ++ '\n' :: (t ++ '\n' :: tick :: tick :: tick :: [])) =
      '\n' :: (t ++ '\n' :: tick :: tick :: tick :: []) := by
    rcases htag with rfl | hmap
    · rw [List.nil_append]
      exact dropJsonTag_cons_ne (by decide) _
    · have hlen : tag.length = 4 := by
        have := congrArg List.length hmap
        simpa using this
      obtain ⟨c1, c2, c3, c4, htag4⟩ :
          ∃ c1 c2 c3 c4, tag = [c1, c2, c3, c4] := by
        cases tag with
        | nil => simp at hlen
        | cons a1 t1 =>
          cases t1 with
          | nil => simp at hlen
          | cons a2 t2 =>
            cases t2 with
            | nil => simp at hlen
            | cons a3 t3 =>
              cases t3 with
              | nil => simp at hlen
              | cons a4 t4 =>
                cases t4 with
                | nil => exact ⟨a1, a2, a3, a4, rfl⟩
                | cons a5 t5 => simp at hlen
      subst htag4
      exact dropJsonTag_tag hmap _
  have hm0ticks : hasTicks ('\n' :: (t ++ ['\n'])) = false := by
    rw [hasTicks_cons, ticks3_false_of_head (by decide), hasTicks_concat (by decide) t]
    simpa using htF
  have hm0last : ('\n' :: (t ++ ['\n'])).getLast? ≠ some tick := by
    rw [show ('\n' :: (t ++ ['\n'])) = ['\n'] ++ (t ++ ['\n']) from rfl,
      List.getLast?_append_of_ne_nil _ (by simp), List.getLast?_concat]
    decide
  have hClose : findClose ('\n' :: (t ++ '\n' :: tick :: tick :: tick :: [])) =
      some ('\n' :: (t ++ ['\n'])) := by
    rw [show ('\n' :: (t ++ '\n' :: tick :: tick :: tick :: []))
        = ('\n' :: (t ++ ['\n'])) ++ tick :: tick :: tick :: [] by simp]
    exact findClose_append [] hm0ticks hm0last
  unfold clean_json_response
  rw [show (String.mk (pre ++ tick :: tick :: tick ::
      (tag ++ '\n' :: (t ++ '\n' :: tick :: tick :: tick :: [])))).data
      = pre ++ tick :: tick :: tick ::
        (tag ++ '\n' :: (t ++ '\n' :: tick :: tick :: tick :: [])) from rfl]
  rw [hOpen]
  simp only
  rw [hTag, hClose]
  simp only
  rw [stripWith_cons_ws (by decide), stripWith_concat_ws (by decide)]

theorem parse_llm_response_eq (s : String) :
    parse_llm_response s =
      match json_loads s with
      | some v => some v
      | none => json_loads (clean_json_response s) := rfl

/-- Claim C1, counterexample to the claim as stated: the bare text
`["<three backticks>"]` is a valid JSON array (its single element is the
string of three backticks), but wrapping it in a markdown fence makes the
non-greedy fence pattern close at the backticks inside the string, so the
fenced parse fails instead of returning the same value. -/
theorem claim_C1_counterexample :
    json_loads (String.mk ('[' :: '"' :: tick :: tick :: tick :: '"' :: ']' :: []))
      = some (JsonValue.arr [JsonValue.str (String.mk [tick, tick, tick])])
    ∧ parse_llm_response (String.mk ('[' :: '"' :: tick :: tick :: tick :: '"' :: ']' :: []))
      = some (JsonValue.arr [JsonValue.str (String.mk [tick, tick, tick])])
    ∧ parse_llm_response (String.mk (tick :: tick :: tick :: 'j' :: 's' :: 'o' :: 'n' :: '\n' ::
        ('[' :: '"' :: tick :: tick :: tick :: '"' :: ']' ::
          '\n' :: tick :: tick :: tick :: []))) = none :=
  ⟨rfl, rfl, rfl⟩

/-- Claim C1 (amended): for every LLM response text that is a valid JSON
array and contains no triple backtick, the response parser returns the same
parsed value whether the text is given bare or wrapped in a markdown code
fence (```` ``` ```` or a case-insensitive `json` tag, with optional
surrounding text before the fence that contains no triple backtick and does
not end in a backtick): the direct parse succeeds in the bare case; in the
fenced case the first parse fails, the fence interior is extracted and
stripped by the pattern, and parsing the interior yields the identical
value. -/
theorem claim_C1_amended (pre tag t : List Char) (a : List JsonValue)
    (htag : tag = [] ∨ tag.map Char.toLower = ['j', 's', 'o', 'n'])
    (ht : json_loads (String.mk t) = some (JsonValue.arr a))
    (htF : hasTicks t = false)
    (hpF : hasTicks pre = false)
    (hpB : pre.getLast? ≠ some tick) :
    parse_llm_response (String.mk t) = some (JsonValue.arr a)
    ∧ json_loads (String.mk (pre ++ tick :: tick :: tick ::
        (tag ++ '\n' :: (t ++ '\n' :: tick :: tick :: tick :: [])))) = none
    ∧ clean_json_response (String.mk (pre ++ tick :: tick :: tick ::
        (tag ++ '\n' :: (t ++ '\n' :: tick :: tick :: tick :: []))))
      = String.mk (stripWith isPyWs t)
    ∧ parse_llm_response (String.mk (pre ++ tick :: tick :: tick ::
        (tag ++ '\n' :: (t ++ '\n' :: tick :: tick :: tick :: [])))) = some (JsonValue.arr a) := by
  have hwnone : json_loads (String.mk (pre ++ tick :: tick :: tick ::
      (tag ++ '\n' :: (t ++ '\n' :: tick :: tick :: tick :: [])))) = none := by
    apply json_loads_none_of_tick_end
    rw [show (String.mk (pre ++ tick :: tick :: tick ::
        (tag ++ '\n' :: (t ++ '\n' :: tick :: tick :: tick :: [])))).data
      = (pre ++ tick :: tick :: tick ::
        (tag ++ '\n' :: (t ++ '\n' :: tick :: tick :: []))) ++ [tick] by simp]
    exact List.getLast?_concat _
  have hclean := clean_wrapped htag htF hpF hpB
  have hstrip : json_loads (String.mk (stripWith isPyWs t)) = some (JsonValue.arr a) :=
    json_loads_mk_pyStrip (s := String.mk t) ht
  refine ⟨?_, hwnone, hclean, ?_⟩
  · rw [parse_llm_response_eq, ht]
  · rw [parse_llm_response_eq, hwnone, hclean]
    exact hstrip

/-- Witness for the amended C1 at the spec's own scenario: the literal text
`Sure, here is the JSON:` followed by a json-tagged fence around
`[{"question":"Q","answer":"A"}]` parses to the same one-element array as
the bare text. -/
theorem claim_C1_witness :
    parse_llm_response (String.mk ("Sure, here is the JSON:".data ++
        tick :: tick :: tick :: (['j', 's', 'o', 'n'] ++ '\n' ::
          ("[\x7b\"question\":\"Q\",\"answer\":\"A\"\x7d]".data ++
            '\n' :: tick :: tick :: tick :: []))))
      = some (JsonValue.arr [JsonValue.obj
          [("question", JsonValue.str "Q"), ("answer", JsonValue.str "A")]]) :=
  (claim_C1_amended "Sure, here is the JSON:".data ['j', 's', 'o', 'n']
    "[\x7b\"question\":\"Q\",\"answer\":\"A\"\x7d]".data
    [JsonValue.obj [("question", JsonValue.str "Q"), ("answer", JsonValue.str "A")]]
    (Or.inr rfl) rfl rfl rfl (by decide)).2.2.2

/-- Claim C5, counterexample to the claim as stated: the all-interfaces
address `0.0.0.0:8080` is not rewritten to `localhost:8080`; only the exact
literal `0.0.0.0:11434` is rewritten. -/
theorem claim_C5_counterexample :
    get_ollama_host (some "0.0.0.0:8080") = Except.ok "http://0.0.0.0:8080"
    ∧ "http://0.0.0.0:8080" ≠ "http://localhost:8080" :=
  ⟨rfl, by decide⟩

/-- Claim C5 (amended): only the exact configured value `0.0.0.0:11434` is
rewritten to `localhost:11434` (and then scheme-prefixed to
`http://localhost:11434`); every other scheme-less host value is only
prefixed with `http://`, its host and port preserved. -/
theorem claim_C5_amended :
    get_ollama_host (some "0.0.0.0:11434") = Except.ok "http://localhost:11434"
    ∧ ∀ s : String, s ≠ "" → s ≠ "0.0.0.0:11434" → hasScheme s = false →
        get_ollama_host (some s) = Except.ok ("http://" ++ s) := by
  refine ⟨rfl, ?_⟩
  intro s hs h11 hsc
  unfold get_ollama_host
  rw [if_neg (by simp [isBlank, hs])]
  simp only [Option.getD_some]
  rw [if_neg h11, if_neg (by simp [hsc])]

/-- Witness for the amended C5, at the spec's scenario value and at a
scheme-less non-rewritten host. -/
theorem claim_C5_witness :
    get_ollama_host (some "0.0.0.0:11434") = Except.ok "http://localhost:11434"
    ∧ get_ollama_host (some "myhost:1234") = Except.ok ("http://" ++ "myhost:1234") :=
  ⟨claim_C5_amended.1, claim_C5_amended.2 "myhost:1234" (by decide) (by decide) rfl⟩

/-- Claim C10: for every configured host other than the exact string
`0.0.0.0:11434`, the host part is never rewritten to localhost; the only
transformation is prefixing `http://` when no scheme is present. -/
theorem claim_C10 (s : String) (hs : s ≠ "") (h11 : s ≠ "0.0.0.0:11434") :
    get_ollama_host (some s) =
      Except.ok (if hasScheme s then s else "http://" ++ s) := by
  unfold get_ollama_host
  rw [if_neg (by simp [isBlank, hs])]
  simp only [Option.getD_some]
  rw [if_neg h11]
  by_cases hsc : hasScheme s
  · rw [if_pos hsc, if_pos hsc]
  · rw [if_neg hsc, if_neg hsc]

/-- Witness for C10 at another all-interfaces address, which keeps its host
and port. -/
theorem claim_C10_witness :
    get_ollama_host (some "0.0.0.0:8080") =
      Except.ok (if hasScheme "0.0.0.0:8080" then "0.0.0.0:8080"
                 else "http://" ++ "0.0.0.0:8080") :=
  claim_C10 "0.0.0.0:8080" (by decide) (by decide)

/-- Is the named required environment variable blank in this environment? -/
def requiredBlank (env : Env) (name : String) : Bool :=
  if name = "OLLAMA_HOST" then isBlank env.ollamaHost
  else if name = "OLLAMA_MODEL" then isBlank env.ollamaModel
  else if name = "FOLDER_PATH" then isBlank env.folderPath
  else if name = "FILE_PATH" then isBlank env.filePath
  else false

theorem get_ollama_host_ok {e : Option String} (h : isBlank e = false) :
    ∃ host, get_ollama_host e = Except.ok host := by
  unfold get_ollama_host
  rw [if_neg (by simp [h])]
  by_cases hsc : hasScheme (if e.getD "" = "0.0.0.0:11434" then "localhost:11434" else e.getD "")
  · exact ⟨_, by rw [if_pos hsc]⟩
  · exact ⟨_, by rw [if_neg hsc]⟩

/-- Claim C6: construction succeeds exactly when the four required values
are present and non-empty; a blank required value yields a configuration
error naming a blank field. -/
theorem claim_C6 (env : Env) :
    (isBlank env.ollamaHost = false → isBlank env.ollamaModel = false →
     isBlank env.folderPath = false → isBlank env.filePath = false →
     ∃ c : Config, Config.init env = Except.ok c)
    ∧ ((isBlank env.ollamaHost = true ∨ isBlank env.ollamaModel = true ∨
        isBlank env.folderPath = true ∨ isBlank env.filePath = true) →
       ∃ name, name ∈ ["OLLAMA_HOST", "OLLAMA_MODEL", "FOLDER_PATH", "FILE_PATH"]
         ∧ Config.init env = Except.error (name ++ " environment variable is required")
         ∧ requiredBlank env name = true) := by
  constructor
  · intro hH hM hF hP
    obtain ⟨host, hhost⟩ := get_ollama_host_ok hH
    unfold Config.init
    rw [hhost]
    simp only
    rw [if_neg (by simp [hM]), if_neg (by simp [hF]), if_neg (by simp [hP])]
    exact ⟨_, rfl⟩
  · intro hblank
    by_cases hH : isBlank env.ollamaHost = true
    · refine ⟨"OLLAMA_HOST", by simp, ?_, by simp [requiredBlank, hH]⟩
      unfold Config.init get_ollama_host
      rw [if_pos hH]
      rfl
    · rw [Bool.not_eq_true] at hH
      obtain ⟨host, hhost⟩ := get_ollama_host_ok hH
      by_cases hM : isBlank env.ollamaModel = true
      · refine ⟨"OLLAMA_MODEL", by simp, ?_, by simp [requiredBlank, hM]⟩
        unfold Config.init
        rw [hhost]
        simp only
        rw [if_pos hM]
        rfl
      · by_cases hF : isBlank env.folderPath = true
        · refine ⟨"FOLDER_PATH", by simp, ?_, by simp [requiredBlank, hF]⟩
          unfold Config.init
          rw [hhost]
          simp only
          rw [if_neg hM, if_pos hF]
          rfl
        · by_cases hP : isBlank env.filePath = true
          · refine ⟨"FILE_PATH", by simp, ?_, by simp [requiredBlank, hP]⟩
            unfold Config.init
            rw [hhost]
            simp only
            rw [if_neg hM, if_neg hF, if_pos hP]
            rfl
          · exfalso
            rcases hblank with h | h | h | h
            · exact (by simp [hH] at h)
            · exact hM h
            · exact hF h
            · exact hP h

/-- Witness for C6: a full environment constructs; an environment missing
the model name fails naming a blank field. -/
theorem claim_C6_witness :
    (∃ c : Config, Config.init
      { ollamaHost := some "0.0.0.0:11434", ollamaModel := some "m",
        folderPath := some "docs", filePath := some "f.txt",
        topP := none, temperature := none, penalty := none,
        maxNewTokens := none } = Except.ok c)
    ∧ (∃ name, name ∈ ["OLLAMA_HOST", "OLLAMA_MODEL", "FOLDER_PATH", "FILE_PATH"]
        ∧ Config.init
          { ollamaHost := some "0.0.0.0:11434", ollamaModel := none,
            folderPath := some "docs", filePath := some "f.txt",
            topP := none, temperature := none, penalty := none,
            maxNewTokens := none }
          = Except.error (name ++ " environment variable is required")
        ∧ requiredBlank
          { ollamaHost := some "0.0.0.0:11434", ollamaModel := none,
            folderPath := some "docs", filePath := some "f.txt",
            topP := none, temperature := none, penalty := none,
            maxNewTokens := none } name = true) :=
  ⟨(claim_C6 _).1 rfl rfl rfl rfl, (claim_C6 _).2 (Or.inr (Or.inl rfl))⟩

/-- Claim C7, counterexample to the claim as stated: on input
`\x0c[1]` (form feed, then a JSON array) the direct parse fails because form
feed is not JSON whitespace, the fence pattern finds no match, yet the
fallback parse of the `strip()`-trimmed text succeeds — the fallback IS a
distinct recovery path, and no JSON-decode error is raised. -/
theorem claim_C7_counterexample :
    json_loads (String.mk ['\x0c', '[', '1', ']']) = none
    ∧ fenceFound (String.mk ['\x0c', '[', '1', ']']) = false
    ∧ parse_llm_response (String.mk ['\x0c', '[', '1', ']'])
      = some (JsonValue.arr [JsonValue.num "1"]) :=
  ⟨rfl, rfl, rfl⟩

/-- Claim C7 (amended): when the direct parse fails and the fence pattern
finds no match, the fallback parses the `strip()`-trimmed original text; the
parser raises a JSON-decode error exactly when that trimmed parse also
fails.  The fallback can be a distinct recovery path when trimming removes
characters (such as form feed) that the JSON parser does not treat as
whitespace. -/
theorem claim_C7_amended (s : String)
    (hnf : fenceFound s = false)
    (h1 : json_loads s = none) :
    clean_json_response s = String.mk (stripWith isPyWs s.data)
    ∧ parse_llm_response s = json_loads (String.mk (stripWith isPyWs s.data))
    ∧ (json_loads (String.mk (stripWith isPyWs s.data)) = none →
        parse_llm_response s = none) := by
  have hclean : clean_json_response s = String.mk (stripWith isPyWs s.data) := by
    unfold fenceFound at hnf
    unfold clean_json_response
    cases ho : findOpen s.data with
    | none => rfl
    | some afterOpen =>
      rw [ho] at hnf
      simp only at hnf
      cases hc : findClose (dropJsonTag afterOpen) with
      | none => simp only [hc]
      | some interior => rw [hc] at hnf; simp at hnf
  have hresp : parse_llm_response s = json_loads (String.mk (stripWith isPyWs s.data)) := by
    rw [parse_llm_response_eq, h1, hclean]
  exact ⟨hclean, hresp, fun h2 => by rw [hresp, h2]⟩

/-- Witness for the amended C7: unparseable text with no fence propagates
the error. -/
theorem claim_C7_witness : parse_llm_response "not json" = none :=
  (claim_C7_amended "not json" rfl rfl).2.2 rfl

/-! ### Shuffle is a permutation -/

theorem cons_set_perm {α : Type _} :
    ∀ (xs : List α) (j : Nat) (x b : α), xs[j]? = some b →
      List.Perm (b :: xs.set j x) (x :: xs)
  | [], j, x, b, h => by simp at h
  | a :: t, 0, x, b, h => by
    simp only [List.getElem?_cons_zero, Option.some.injEq] at h
    subst h
    rw [List.set_cons_zero]
    exact List.Perm.swap x a t
  | a :: t, j + 1, x, b, h => by
    simp only [List.getElem?_cons_succ] at h
    rw [List.set_cons_succ]
    have ih := cons_set_perm t j x b h
    exact (List.Perm.swap a b _).trans ((ih.cons a).trans (List.Perm.swap x a t))

theorem set_set_perm' {α : Type _} :
    ∀ (l : List α) (i j : Nat) (a b : α), l[i]? = some a → l[j]? = some b →
      List.Perm ((l.set i b).set j a) l
  | [], _, _, _, _, hi, _ => by simp at hi
  | x :: t, 0, 0, a, b, hi, hj => by
    simp only [List.getElem?_cons_zero, Option.some.injEq] at hi hj
    subst hi
    rw [List.set_cons_zero, List.set_cons_zero]
  | x :: t, 0, j + 1, a, b, hi, hj => by
    simp only [List.getElem?_cons_zero, Option.some.injEq,
      List.getElem?_cons_succ] at hi hj
    subst hi
    rw [List.set_cons_zero, List.set_cons_succ]
    exact cons_set_perm t j x b hj
  | x :: t, i + 1, 0, a, b, hi, hj => by
    simp only [List.getElem?_cons_zero, Option.some.injEq,
      List.getElem?_cons_succ] at hi hj
    subst hj
    rw [List.set_cons_succ, List.set_cons_zero]
    exact cons_set_perm t i x a hi
  | x :: t, i + 1, j + 1, a, b, hi, hj => by
    simp only [List.getElem?_cons_succ] at hi hj
    rw [List.set_cons_succ, List.set_cons_succ]
    exact (set_set_perm' t i j a b hi hj).cons x

theorem swapL_perm {α : Type _} (l : List α) (i j : Nat) :
    List.Perm (swapL l i j) l := by
  unfold swapL
  cases hi : l[i]? with
  | none => exact List.Perm.refl l
  | some a =>
    cases hj : l[j]? with
    | none => exact List.Perm.refl l
    | some b => exact set_set_perm' l i j a b hi hj

theorem shuffleGo_perm {α : Type _} (r : Nat → Nat) :
    ∀ (i : Nat) (l : List α), List.Perm (shuffleGo r i l) l
  | 0, l => List.Perm.refl l
  | i + 1, l =>
    (shuffleGo_perm r i (swapL l (i + 1) (r (i + 1) % (i + 2)))).trans
      (swapL_perm l (i + 1) (r (i + 1) % (i + 2)))

theorem shuffle_perm {α : Type _} (r : Nat → Nat) (l : List α) :
    List.Perm (shuffle r l) l :=
  shuffleGo_perm r (l.length - 1) l

/-- Claim C3: the shuffle used by the document processor and the batch
driver is a permutation of its input: same multiset of elements, same
length, nothing invented or dropped. -/
theorem claim_C3 (r : Nat → Nat) (l : List JsonValue) :
    List.Perm (shuffle r l) l
    ∧ (shuffle r l).length = l.length
    ∧ (shuffle r l : Multiset JsonValue) = (l : Multiset JsonValue) :=
  ⟨shuffle_perm r l, (shuffle_perm r l).length_eq,
    Multiset.coe_eq_coe.mpr (shuffle_perm r l)⟩

/-! ### Batch driver claims -/

theorem process_multiple_documents_eq (conv gen : String → Option String)
    (writeOk : String → Bool) (folder : FolderState) (outputDir : Bool)
    (shuffleQa shuffleCombined : Bool) (randDoc : Nat → Nat → Nat)
    (randComb : Nat → Nat)
    (hpres : folder.present = true)
    (hne : (listDocFiles folder).isEmpty = false) :
    process_multiple_documents conv gen writeOk folder outputDir shuffleQa
        shuffleCombined randDoc randComb
      = Except.ok (batchResults conv gen writeOk shuffleQa randDoc folder,
          if outputDir && !(batchResults conv gen writeOk shuffleQa randDoc folder).isEmpty
          then some (if shuffleCombined &&
                !(combinedQaOf (batchResults conv gen writeOk shuffleQa randDoc folder)).isEmpty
              then shuffle randComb
                (combinedQaOf (batchResults conv gen writeOk shuffleQa randDoc folder))
              else combinedQaOf (batchResults conv gen writeOk shuffleQa randDoc folder))
          else none) := by
  unfold process_multiple_documents
  rw [hpres]
  rw [if_neg (by simp)]
  rw [if_neg (by simp [hne])]

theorem filterMap_asList_map_arr :
    ∀ ls : List (List JsonValue), (ls.map JsonValue.arr).filterMap asList = ls
  | [] => rfl
  | l :: ls => by
    simp only [List.map_cons, List.filterMap_cons]
    rw [show asList (JsonValue.arr l) = some l from rfl]
    rw [filterMap_asList_map_arr ls]

theorem exists_arr_decomp :
    ∀ rs : List JsonValue, (∀ r ∈ rs, (asList r).isSome = true) →
      ∃ ls : List (List JsonValue), rs = ls.map JsonValue.arr
  | [], _ => ⟨[], rfl⟩
  | r :: rs, h => by
    obtain ⟨ls, hls⟩ := exists_arr_decomp rs (fun x hx => h x (List.mem_cons_of_mem r hx))
    have hr := h r (List.mem_cons_self r rs)
    cases r with
    | arr l => exact ⟨l :: ls, by rw [List.map_cons, hls]⟩
    | null => simp [asList] at hr
    | bool b => simp [asList] at hr
    | num n => simp [asList] at hr
    | str s => simp [asList] at hr
    | obj m => simp [asList] at hr

/-- Claim C2: with an output directory and at least one success, the
combined file is written; its content before any combined-level shuffle is
the concatenation of exactly the successful per-document QA lists in
document-enumeration order, each document's internal order preserved; with
the combined-level shuffle disabled that concatenation is the file content
verbatim. -/
theorem claim_C2 (conv gen : String → Option String) (writeOk : String → Bool)
    (folder : FolderState) (shuffleQa shuffleCombined : Bool)
    (randDoc : Nat → Nat → Nat) (randComb : Nat → Nat)
    (hpres : folder.present = true)
    (hne : (listDocFiles folder).isEmpty = false)
    (hres : (batchResults conv gen writeOk shuffleQa randDoc folder).isEmpty = false)
    (hlist : ∀ r ∈ batchResults conv gen writeOk shuffleQa randDoc folder,
      (asList r).isSome = true) :
    ∃ ls : List (List JsonValue),
      batchResults conv gen writeOk shuffleQa randDoc folder = ls.map JsonValue.arr
      ∧ process_multiple_documents conv gen writeOk folder true shuffleQa
          shuffleCombined randDoc randComb
        = Except.ok (ls.map JsonValue.arr,
            some (if shuffleCombined && !ls.flatten.isEmpty
                  then shuffle randComb ls.flatten else ls.flatten))
      ∧ (shuffleCombined = false →
          process_multiple_documents conv gen writeOk folder true shuffleQa
              shuffleCombined randDoc randComb
            = Except.ok (ls.map JsonValue.arr, some ls.flatten)) := by
  obtain ⟨ls, hls⟩ := exists_arr_decomp _ hlist
  have hcomb : combinedQaOf (batchResults conv gen writeOk shuffleQa randDoc folder)
      = ls.flatten := by
    unfold combinedQaOf
    rw [hls, filterMap_asList_map_arr]
  have heq := process_multiple_documents_eq conv gen writeOk folder true shuffleQa
    shuffleCombined randDoc randComb hpres hne
  rw [hls] at hres
  rw [hcomb, hls] at heq
  rw [if_pos (by simp [hres])] at heq
  refine ⟨ls, hls, heq, fun hsc => ?_⟩
  rw [heq, hsc]
  simp

/-- Claim C4: a failing document contributes nothing; the batch does not
abort, every other enumerated document is still attempted, and the returned
list is exactly the successes in enumeration order. -/
theorem claim_C4 (conv gen : String → Option String) (writeOk : String → Bool)
    (folder : FolderState) (outputDir : Bool) (shuffleQa shuffleCombined : Bool)
    (randDoc : Nat → Nat → Nat) (randComb : Nat → Nat)
    (pre post : List (Nat × String)) (k : Nat) (d : String)
    (hpres : folder.present = true)
    (hsplit : (listDocFiles folder).enum = pre ++ (k, d) :: post)
    (hfail : process_document conv gen writeOk shuffleQa (randDoc k) d = none) :
    ∃ comb,
      process_multiple_documents conv gen writeOk folder outputDir shuffleQa
          shuffleCombined randDoc randComb
        = Except.ok
            (pre.filterMap
              (fun p => process_document conv gen writeOk shuffleQa (randDoc p.1) p.2)
            ++ post.filterMap
              (fun p => process_document conv gen writeOk shuffleQa (randDoc p.1) p.2),
             comb) := by
  have hne : (listDocFiles folder).isEmpty = false := by
    cases hl : listDocFiles folder with
    | nil => rw [hl] at hsplit; simp [List.enum] at hsplit
    | cons x xs => rfl
  have hbe : batchResults conv gen writeOk shuffleQa randDoc folder
      = pre.filterMap
          (fun p => process_document conv gen writeOk shuffleQa (randDoc p.1) p.2)
        ++ post.filterMap
          (fun p => process_document conv gen writeOk shuffleQa (randDoc p.1) p.2) := by
    unfold batchResults
    rw [hsplit, List.filterMap_append]
    congr 1
    rw [List.filterMap_cons]
    simp only
    rw [hfail]
  have heq := process_multiple_documents_eq conv gen writeOk folder outputDir shuffleQa
    shuffleCombined randDoc randComb hpres hne
  rw [hbe] at heq
  exact ⟨_, heq⟩

/-- Claim C8: a nonexistent folder fails with a configuration error; an
existing folder with no matching extensions returns an empty result list and
writes no combined file. -/
theorem claim_C8 (conv gen : String → Option String) (writeOk : String → Bool)
    (folder : FolderState) (outputDir : Bool) (shuffleQa shuffleCombined : Bool)
    (randDoc : Nat → Nat → Nat) (randComb : Nat → Nat) :
    (folder.present = false →
      process_multiple_documents conv gen writeOk folder outputDir shuffleQa
          shuffleCombined randDoc randComb
        = Except.error "Folder path does not exist")
    ∧ (folder.present = true →
       (∀ n ∈ folder.entries, matchesExt n = false) →
       process_multiple_documents conv gen writeOk folder outputDir shuffleQa
           shuffleCombined randDoc randComb
         = Except.ok ([], none)) := by
  constructor
  · intro hpres
    unfold process_multiple_documents
    rw [hpres]
    rw [if_pos (by simp)]
  · intro hpres hnone
    have hfilter : folder.entries.filter matchesExt = [] := by
      rw [List.filter_eq_nil_iff]
      intro a ha
      simp [hnone a ha]
    have hdocs : listDocFiles folder = [] := by
      unfold listDocFiles
      rw [hfilter]
      rfl
    unfold process_multiple_documents
    rw [hpres]
    rw [if_neg (by simp), if_pos (by simp [hdocs])]

/-- Claim C9: a successful document whose parsed value is valid JSON but not
list-shaped is counted as a success — it appears in the returned result list
(and its per-document file is written, modelled by the success value) — yet
contributes no elements to the combined file: the flattening extends only
list-shaped results. -/
theorem claim_C9 (conv gen : String → Option String) (writeOk : String → Bool)
    (folder : FolderState) (shuffleQa : Bool)
    (randDoc : Nat → Nat → Nat) (randComb : Nat → Nat)
    (r1 r2 : List JsonValue) (v : JsonValue)
    (hpres : folder.present = true)
    (hne : (listDocFiles folder).isEmpty = false)
    (hsplit : batchResults conv gen writeOk shuffleQa randDoc folder = r1 ++ v :: r2)
    (hnl : asList v = none) :
    v ∈ batchResults conv gen writeOk shuffleQa randDoc folder
    ∧ process_multiple_documents conv gen writeOk folder true shuffleQa false
        randDoc randComb
      = Except.ok (r1 ++ v :: r2,
          some ((r1.filterMap asList).flatten ++ (r2.filterMap asList).flatten)) := by
  have hmem : v ∈ batchResults conv gen writeOk shuffleQa randDoc folder := by
    rw [hsplit]
    exact List.mem_append_right _ (List.mem_cons_self v r2)
  have hcomb : combinedQaOf (r1 ++ v :: r2)
      = (r1.filterMap asList).flatten ++ (r2.filterMap asList).flatten := by
    unfold combinedQaOf
    rw [List.filterMap_append, List.filterMap_cons]
    simp only [hnl]
    rw [List.flatten_append]
  have heq := process_multiple_documents_eq conv gen writeOk folder true shuffleQa
    false randDoc randComb hpres hne
  rw [hsplit, hcomb] at heq
  rw [if_pos (by simp)] at heq
  rw [show (false && !((r1.filterMap asList).flatten
      ++ (r2.filterMap asList).flatten).isEmpty) = false from Bool.false_and _] at heq
  rw [if_neg (by simp)] at heq
  exact ⟨hmem, heq⟩

/-- Shared concrete oracles for the batch witnesses: the converter tags the
path, the LLM oracle answers per tag (failing on `c.txt`), writes always
succeed. -/
def convW : String → Option String := fun p => some ("md:" ++ p)

def genW : String → Option String := fun md =>
  if md = "md:a.txt" then some "[1, 2]"
  else if md = "md:b.pdf" then some "[3, 4, 5]"
  else if md = "md:d.txt" then some "\x7b\"k\": 0\x7d"
  else none

/-- Witness for C2 at the spec scenario: `a.txt` yields 2 pairs, `b.pdf`
yields 3, shuffling disabled; the combined content is the 5 entries in
order. -/
theorem claim_C2_witness :
    ∃ ls : List (List JsonValue),
      batchResults convW genW (fun _ => true) false (fun _ _ => 0)
          ⟨true, ["b.pdf", "a.txt"]⟩ = ls.map JsonValue.arr
      ∧ process_multiple_documents convW genW (fun _ => true)
          ⟨true, ["b.pdf", "a.txt"]⟩ true false false (fun _ _ => 0) (fun _ => 0)
        = Except.ok (ls.map JsonValue.arr,
            some (if false && !ls.flatten.isEmpty
                  then shuffle (fun _ => 0) ls.flatten else ls.flatten))
      ∧ (false = false →
          process_multiple_documents convW genW (fun _ => true)
              ⟨true, ["b.pdf", "a.txt"]⟩ true false false (fun _ _ => 0) (fun _ => 0)
            = Except.ok (ls.map JsonValue.arr, some ls.flatten)) :=
  claim_C2 convW genW (fun _ => true) ⟨true, ["b.pdf", "a.txt"]⟩ false false
    (fun _ _ => 0) (fun _ => 0) rfl rfl rfl (by decide)

/-- Witness for C4: with `c.txt` failing between two successes, the batch
returns the two successes in order. -/
theorem claim_C4_witness :
    ∃ comb,
      process_multiple_documents convW genW (fun _ => true)
          ⟨true, ["c.txt", "b.pdf", "a.txt"]⟩ true false false (fun _ _ => 0) (fun _ => 0)
        = Except.ok
            (([(0, "a.txt"), (1, "b.pdf")] : List (Nat × String)).filterMap
              (fun p => process_document convW genW (fun _ => true) false
                ((fun _ _ => 0) p.1) p.2)
            ++ ([] : List (Nat × String)).filterMap
              (fun p => process_document convW genW (fun _ => true) false
                ((fun _ _ => 0) p.1) p.2),
             comb) :=
  claim_C4 convW genW (fun _ => true) ⟨true, ["c.txt", "b.pdf", "a.txt"]⟩ true
    false false (fun _ _ => 0) (fun _ => 0) [(0, "a.txt"), (1, "b.pdf")] [] 2 "c.txt"
    rfl rfl rfl

/-- Witness for C8 at a missing folder and at a folder with only
non-matching names. -/
theorem claim_C8_witness :
    process_multiple_documents convW genW (fun _ => true) ⟨false, ["a.txt"]⟩
        true false false (fun _ _ => 0) (fun _ => 0)
      = Except.error "Folder path does not exist"
    ∧ process_multiple_documents convW genW (fun _ => true) ⟨true, ["a.png", "notes"]⟩
        true false false (fun _ _ => 0) (fun _ => 0)
      = Except.ok ([], none) :=
  ⟨(claim_C8 convW genW (fun _ => true) ⟨false, ["a.txt"]⟩ true false false
      (fun _ _ => 0) (fun _ => 0)).1 rfl,
   (claim_C8 convW genW (fun _ => true) ⟨true, ["a.png", "notes"]⟩ true false false
      (fun _ _ => 0) (fun _ => 0)).2 rfl (by decide)⟩

/-- Witness for C9: `d.txt` parses to a JSON object (not a list); it is in
the result list but contributes nothing to the combined content. -/
theorem claim_C9_witness :
    JsonValue.obj [("k", JsonValue.num "0")] ∈ batchResults convW genW
        (fun _ => true) false (fun _ _ => 0) ⟨true, ["d.txt", "a.txt"]⟩
    ∧ process_multiple_documents convW genW (fun _ => true)
        ⟨true, ["d.txt", "a.txt"]⟩ true false false (fun _ _ => 0) (fun _ => 0)
      = Except.ok ([JsonValue.arr [JsonValue.num "1", JsonValue.num "2"],
            JsonValue.obj [("k", JsonValue.num "0")]],
          some ((([JsonValue.arr [JsonValue.num "1", JsonValue.num "2"]] :
              List JsonValue).filterMap asList).flatten
            ++ (([] : List JsonValue).filterMap asList).flatten)) :=
  claim_C9 convW genW (fun _ => true) ⟨true, ["d.txt", "a.txt"]⟩ false
    (fun _ _ => 0) (fun _ => 0)
    [JsonValue.arr [JsonValue.num "1", JsonValue.num "2"]] []
    (JsonValue.obj [("k", JsonValue.num "0")]) rfl rfl rfl rfl
